import Mathlib

/-!
Verification of the numeric core of MusicalRaaga (`utils/audioUtils.ts`):
`detectPitch` (autocorrelation pitch estimation) and `estimateTempo`
(RMS energy profile, onset detection, inter-onset-interval histogram).

Modelling conventions:
* JavaScript `number` arithmetic is idealised as exact rational arithmetic (ℚ);
  the only non-finite value reachable in this code is the result of dividing a
  nonzero number by zero, which we capture with the `JSVal` type (`fin`/`inf`/
  `ninf`/`nan`).
* `Math.sqrt` is kept as an explicit function parameter `sq : ℚ → ℚ` because
  square roots of rationals are in general irrational; theorems assume only
  the properties of the square root that they need (`SqrtOK`), and concrete
  evaluations instantiate it with a function that agrees with the exact square
  root on every argument actually reached by the trace (all such arguments are
  perfect rational squares).
* `Math.floor` is `Int.floor` on ℚ; `Math.round` is round-half-up,
  `jsRound q = ⌊q + 1/2⌋`.
* Sample buffers are `List ℚ` (the contents of `getChannelData(0)`), together
  with `sampleRate : ℚ`.
-/

namespace AudioUtils

/-- JavaScript `Math.round`: round half towards positive infinity. -/
def jsRound (q : ℚ) : ℤ := ⌊q + 1/2⌋

/-- A JavaScript number: finite rational, +Infinity, -Infinity, or NaN. -/
inductive JSVal where
  | fin : ℚ → JSVal
  | inf : JSVal
  | ninf : JSVal
  | nan : JSVal
deriving DecidableEq, Repr

/-- JavaScript division of two finite numbers: `x / 0` is `NaN` when `x = 0`,
`+Infinity` when `x > 0` and `-Infinity` when `x < 0` (the `+0` case; the code
below only ever reaches a zero denominator as `mostCommonInterval *
secondsPerWindow` with both factors non-negative). -/
def jsDiv (a b : ℚ) : JSVal :=
  if b = 0 then (if a = 0 then .nan else if 0 < a then .inf else .ninf)
  else .fin (a / b)

/-- `v > q` for a JavaScript number `v` and finite `q` (NaN compares false). -/
def JSVal.gtQ : JSVal → ℚ → Bool
  | .fin a, q => decide (q < a)
  | .inf, _ => true
  | .ninf, _ => false
  | .nan, _ => false

/-- `v < q` for a JavaScript number `v` and finite `q` (NaN compares false). -/
def JSVal.ltQ : JSVal → ℚ → Bool
  | .fin a, q => decide (a < q)
  | .inf, _ => false
  | .ninf, _ => true
  | .nan, _ => false

/-- `v / q` for a JavaScript number `v` and a finite positive `q`
(the code only uses `q = 2`). -/
def JSVal.divQ : JSVal → ℚ → JSVal
  | .fin a, q => .fin (a / q)
  | .inf, _ => .inf
  | .ninf, _ => .ninf
  | .nan, _ => .nan

/-- `v * q` for a JavaScript number `v` and a finite positive `q`
(the code only uses `q = 2`). -/
def JSVal.mulQ : JSVal → ℚ → JSVal
  | .fin a, q => .fin (a * q)
  | .inf, _ => .inf
  | .ninf, _ => .ninf
  | .nan, _ => .nan

/-- `Math.round` lifted to JavaScript numbers (`Math.round(Infinity) = Infinity`). -/
def JSVal.roundToInt : JSVal → JSVal
  | .fin a => .fin (jsRound a)
  | v => v

/-- Properties of `Math.sqrt` (idealised to exact arithmetic) that the theorems
below rely on: the square root of zero is zero and square roots of
non-negative numbers are non-negative. -/
def SqrtOK (sq : ℚ → ℚ) : Prop :=
  sq 0 = 0 ∧ ∀ q : ℚ, 0 ≤ q → 0 ≤ sq q

/-! ### `detectPitch` (autocorrelation pitch estimation)

Source: `utils/audioUtils.ts` lines 16–58. -/

/-- `const maxLag = Math.floor(sampleRate / 60)`. -/
def maxLag (sampleRate : ℚ) : ℕ := (⌊sampleRate / 60⌋).toNat

/-- `const comparisonSamples = Math.floor(bufferLength / 3)` (ℕ division is
floor division). -/
def comparisonSamples (bufferLength : ℕ) : ℕ := bufferLength / 3

/-- The inner accumulation loop for one lag:
`for (let i = 0; i < comparisonSamples; i++) if (i + lag < bufferLength)
correlation += channelData[i] * channelData[i + lag]`. -/
def corrAt (s : List ℚ) (lag : ℕ) : ℚ :=
  ((List.range (comparisonSamples s.length)).map
    (fun i => if i + lag < s.length then s.getD i 0 * s.getD (i + lag) 0 else 0)).sum

/-- The correlation array:
`for (let lag = 0; lag < maxLag; lag++) correlations.push(...)`. -/
def correlations (sampleRate : ℚ) (s : List ℚ) : List ℚ :=
  (List.range (maxLag sampleRate)).map (corrAt s)

/-- The `while` loop (lines 41–44)
`while (firstDropIndex < correlations.length - 1 && correlations[firstDropIndex + 1] >= correlations[firstDropIndex]) firstDropIndex++`,
as a recursion on the loop counter `i` (each iteration moves `i` one step
closer to `correlations.length - 1`). -/
def firstDropFrom (c : List ℚ) (i : ℕ) : ℕ :=
  if h : i < c.length - 1 ∧ c.getD i 0 ≤ c.getD (i + 1) 0 then
    firstDropFrom c (i + 1)
  else i
termination_by c.length - 1 - i
decreasing_by omega

/-- `let firstDropIndex = 0; while (...) firstDropIndex++`. -/
def firstDropIndex (c : List ℚ) : ℕ := firstDropFrom c 0

/-- The peak-search loop (lines 46–51):
`let peakIndex = firstDropIndex + 1;
for (let i = firstDropIndex + 1; i < correlations.length - 1; i++)
if (correlations[i] > correlations[peakIndex]) peakIndex = i`. -/
def peakStep (c : List ℚ) (p i : ℕ) : ℕ :=
  if c.getD p 0 < c.getD i 0 then i else p

/-- Folding the loop body over the loop counter range. -/
def peakFold (c : List ℚ) (start count : ℕ) : ℕ :=
  (List.range' start count).foldl (peakStep c) start

/-- The selected peak lag of the correlation array. -/
def peakIndex (c : List ℚ) : ℕ :=
  peakFold c (firstDropIndex c + 1) (c.length - 1 - (firstDropIndex c + 1))

/-- `detectPitch` (lines 16–58): autocorrelation, first-drop walk, peak search,
`sampleRate / peakIndex` rounded to the nearest 0.1 Hz
(`Math.round(fundamentalFrequency * 10) / 10`).  `peakIndex` is always ≥ 1
(proved below), so the division never has a zero denominator. -/
def detectPitch (sampleRate : ℚ) (s : List ℚ) : ℚ :=
  let c := correlations sampleRate s
  let p := peakIndex c
  (jsRound (sampleRate / (p : ℚ) * 10) : ℚ) / 10

/-! ### `estimateTempo` (energy profile, onsets, interval histogram)

Source: `utils/audioUtils.ts` lines 64–150. -/

/-- `const windowSize = Math.floor(sampleRate * 0.02)` (20 ms windows). -/
def windowSize (sampleRate : ℚ) : ℕ := (⌊sampleRate * (2/100)⌋).toNat

/-- The window loop (lines 72–82):
`for (let i = 0; i < channelData.length; i += windowSize) { ... const limit =
Math.min(i + windowSize, channelData.length); for (let j = i; j < limit; j++)
sum += channelData[j] * channelData[j]; energyProfile.push(Math.sqrt(sum / (limit - i))) }`.
The guard `0 < ws` is required for termination: with `windowSize = 0` (i.e.
`sampleRate < 50`) the JavaScript loop does not terminate at all, so no claim
is meaningful there; every theorem about the profile assumes `0 < ws`. -/
def energyProfileFrom (sq : ℚ → ℚ) (s : List ℚ) (ws i : ℕ) : List ℚ :=
  if _h : i < s.length ∧ 0 < ws then
    let limit := min (i + ws) s.length
    sq (((List.range' i (limit - i)).map (fun j => s.getD j 0 * s.getD j 0)).sum
          / ((limit - i : ℕ) : ℚ)) ::
      energyProfileFrom sq s ws (i + ws)
  else []
termination_by s.length - i
decreasing_by omega

/-- The full energy profile of a buffer (window size in samples). -/
def buildEnergyProfile (sq : ℚ → ℚ) (s : List ℚ) (ws : ℕ) : List ℚ :=
  energyProfileFrom sq s ws 0

/-- `calculateDynamicThreshold` (lines 138–150): population mean plus 1.5
population standard deviations of the profile. -/
def calculateDynamicThreshold (sq : ℚ → ℚ) (p : List ℚ) : ℚ :=
  let mean := p.sum / (p.length : ℚ)
  let variance := ((p.map (fun v => (v - mean) ^ 2)).sum) / (p.length : ℚ)
  mean + 3/2 * sq variance

/-- The onset scan (lines 85–94):
`for (let i = 1; i < energyProfile.length - 1; i++)
if (energyProfile[i] > threshold && energyProfile[i] > energyProfile[i-1] &&
energyProfile[i] >= energyProfile[i+1]) onsets.push(i)`. -/
def findOnsets (sq : ℚ → ℚ) (p : List ℚ) : List ℕ :=
  let threshold := calculateDynamicThreshold sq p
  (List.range' 1 (p.length - 1 - 1)).filter fun i =>
    decide (threshold < p.getD i 0) &&
    decide (p.getD (i - 1) 0 < p.getD i 0) &&
    decide (p.getD (i + 1) 0 ≤ p.getD i 0)

/-- Inter-onset intervals (lines 97–100):
`for (let i = 1; i < onsets.length; i++) intervals.push(onsets[i] - onsets[i-1])`. -/
def intervalsOf (os : List ℕ) : List ℤ :=
  (List.range' 1 (os.length - 1)).map
    (fun k => (os.getD k 0 : ℤ) - (os.getD (k - 1) 0 : ℤ))

/-- `const normalizedInterval = Math.round(interval / 2) * 2` (line 106). -/
def normalizeInterval (i : ℤ) : ℤ := jsRound ((i : ℚ) / 2) * 2

/-- The multiset of normalized intervals recorded in `histogramBins`
(lines 103–108): the bin of key `k` holds `histCount ints k`. -/
def normalizedIntervals (ints : List ℤ) : List ℤ := ints.map normalizeInterval

/-- The count stored in `histogramBins[k]`. -/
def histCount (ints : List ℤ) (k : ℤ) : ℕ := (normalizedIntervals ints).count k

/-- Insert a key into an ascending, duplicate-free key list. -/
def insertKey (k : ℤ) : List ℤ → List ℤ
  | [] => [k]
  | x :: xs =>
    if k < x then k :: x :: xs
    else if k = x then x :: xs
    else x :: insertKey k xs

/-- The key list over which line 113 iterates.  `histogramBins` is a plain
JavaScript object whose keys are integer-like strings; per ECMA-262
(OrdinaryOwnPropertyKeys), `Object.entries` enumerates such array-index keys
in ascending numeric order — not in insertion order.  The key list is
therefore the ascending sorted list of the distinct normalized intervals. -/
def histKeys (ints : List ℤ) : List ℤ :=
  (normalizedIntervals ints).foldl (fun acc k => insertKey k acc) []

/-- The winner scan (lines 110–118):
`let mostCommonInterval = 0; let maxCount = 0;
Object.entries(histogramBins).forEach(([interval, count]) => {
if (count > maxCount) { maxCount = count; mostCommonInterval = parseInt(interval); } })`. -/
def winnerFold (cnt : ℤ → ℕ) (keys : List ℤ) (st : ℤ × ℕ) : ℤ × ℕ :=
  keys.foldl (fun st k => if st.2 < cnt k then (k, cnt k) else st) st

/-- The value of `mostCommonInterval` after the scan. -/
def mostCommonInterval (ints : List ℤ) : ℤ :=
  (winnerFold (histCount ints) (histKeys ints) (0, 0)).1

/-- The range-correction tail (lines 129–130):
`if (bpm > 240) bpm /= 2; if (bpm < 60) bpm *= 2`. -/
def rangeCorrect (b : JSVal) : JSVal :=
  let b1 := if b.gtQ 240 then b.divQ 2 else b
  if b1.ltQ 60 then b1.mulQ 2 else b1

/-- `estimateTempo` (lines 64–133): energy profile, onset detection, interval
histogram, BPM conversion (`bpm = 60 / (mostCommonInterval * windowSize /
sampleRate)`), single-shot range correction, and final `Math.round`. -/
def estimateTempo (sq : ℚ → ℚ) (sampleRate : ℚ) (s : List ℚ) : JSVal :=
  let ws := windowSize sampleRate
  let profile := buildEnergyProfile sq s ws
  let onsets := findOnsets sq profile
  let ints := intervalsOf onsets
  let mci := mostCommonInterval ints
  let secondsPerWindow : ℚ := (ws : ℚ) / sampleRate
  let secondsPerBeat : ℚ := (mci : ℚ) * secondsPerWindow
  let bpm := jsDiv 60 secondsPerBeat
  (rangeCorrect bpm).roundToInt

/-! ### Spec-described variants (for refinement comparison)

The specification describes two scan behaviours in words; the following
definitions follow the spec text (not the source) so that they can be compared
with the source-derived definitions above. -/

/-- Spec §4.1 step 3, as written: "Walk the correlation sequence from `L=0`
forward while it is non-increasing …; call the lag where it first increases
the first-drop index."  (Note the direction: the walk continues while the
next value is ≤ the current one and stops at the first strict increase.) -/
def specFirstDropFrom (c : List ℚ) (i : ℕ) : ℕ :=
  if h : i < c.length - 1 ∧ c.getD (i + 1) 0 ≤ c.getD i 0 then
    specFirstDropFrom c (i + 1)
  else i
termination_by c.length - 1 - i
decreasing_by omega

/-- The spec-described first-drop index, starting from lag 0. -/
def specFirstDrop (c : List ℚ) : ℕ := specFirstDropFrom c 0

/-- Spec §4.1 step 4, as written: "From the first-drop index onward, find the
lag with the maximum correlation value" (earliest lag on a tie). -/
def specPeakLag (c : List ℚ) : ℕ :=
  let fd := specFirstDrop c
  (List.range' fd (c.length - fd)).foldl (peakStep c) fd

/-- The pitch-estimation procedure exactly as the spec words it (steps 3–5):
spec walk, maximum over the whole remaining range, `sample_rate / peak_lag`
rounded to the nearest 0.1 Hz. -/
def specEstimatePitch (sampleRate : ℚ) (s : List ℚ) : ℚ :=
  let c := correlations sampleRate s
  let p := specPeakLag c
  (jsRound (sampleRate / (p : ℚ) * 10) : ℚ) / 10

/-- Spec §4.3 step 4, as written: the bucket with the highest count wins ties
"by first-seen order during the scan".  The key list is therefore the distinct
normalized intervals in order of first appearance. -/
def insertFirstSeen (acc : List ℤ) (k : ℤ) : List ℤ :=
  if k ∈ acc then acc else acc ++ [k]

/-- Distinct normalized intervals in first-seen order. -/
def histKeysFirstSeen (ints : List ℤ) : List ℤ :=
  (normalizedIntervals ints).foldl insertFirstSeen []

/-- The winning bucket under the spec-described first-seen tie-break. -/
def specMostCommonFirstSeen (ints : List ℤ) : ℤ :=
  (winnerFold (histCount ints) (histKeysFirstSeen ints) (0, 0)).1

/-- `estimateTempo` with the spec-described first-seen tie-break substituted
for the source's ascending-key scan (everything else unchanged). -/
def specEstimateTempoFirstSeen (sq : ℚ → ℚ) (sampleRate : ℚ) (s : List ℚ) : JSVal :=
  let ws := windowSize sampleRate
  let profile := buildEnergyProfile sq s ws
  let onsets := findOnsets sq profile
  let ints := intervalsOf onsets
  let mci := specMostCommonFirstSeen ints
  let secondsPerWindow : ℚ := (ws : ℚ) / sampleRate
  let secondsPerBeat : ℚ := (mci : ℚ) * secondsPerWindow
  let bpm := jsDiv 60 secondsPerBeat
  (rangeCorrect bpm).roundToInt

/-! ### Helper lemmas: floors and rounding -/

lemma floorToNat_eq (q : ℚ) (n : ℕ) (h1 : (n : ℚ) ≤ q) (h2 : q < n + 1) :
    (⌊q⌋).toNat = n := by
  have : ⌊q⌋ = (n : ℤ) := by
    rw [Int.floor_eq_iff]
    exact ⟨by exact_mod_cast h1, by exact_mod_cast h2⟩
  simp [this]

lemma jsRound_eq (q : ℚ) (n : ℤ) (h1 : (n : ℚ) ≤ q + 1/2) (h2 : q + 1/2 < n + 1) :
    jsRound q = n := by
  unfold jsRound
  rw [Int.floor_eq_iff]
  exact ⟨by exact_mod_cast h1, by exact_mod_cast h2⟩

lemma le_jsRound (q : ℚ) (n : ℤ) (h : (n : ℚ) ≤ q + 1/2) : n ≤ jsRound q :=
  Int.le_floor.mpr h

lemma jsRound_le (q : ℚ) (n : ℤ) (h : q + 1/2 < n + 1) : jsRound q ≤ n := by
  have : jsRound q < n + 1 := Int.floor_lt.mpr (by exact_mod_cast h)
  omega

/-! ### Analysis of the first-drop walk -/

lemma firstDropFrom_ge (c : List ℚ) (i : ℕ) : i ≤ firstDropFrom c i := by
  induction i using firstDropFrom.induct c with
  | case1 x h ih => rw [firstDropFrom, dif_pos h]; omega
  | case2 x h => rw [firstDropFrom, dif_neg h]

lemma firstDropFrom_le (c : List ℚ) (i : ℕ) (hi : i ≤ c.length - 1) :
    firstDropFrom c i ≤ c.length - 1 := by
  induction i using firstDropFrom.induct c with
  | case1 x h ih => rw [firstDropFrom, dif_pos h]; exact ih (by omega)
  | case2 x h => rw [firstDropFrom, dif_neg h]; exact hi

lemma firstDropFrom_prefix (c : List ℚ) (i : ℕ) :
    ∀ j, i ≤ j → j < firstDropFrom c i → c.getD j 0 ≤ c.getD (j + 1) 0 := by
  induction i using firstDropFrom.induct c with
  | case1 x h ih =>
    intro j hj hj2
    rw [firstDropFrom, dif_pos h] at hj2
    rcases Nat.eq_or_lt_of_le hj with rfl | hlt
    · exact h.2
    · exact ih j hlt hj2
  | case2 x h =>
    intro j hj hj2
    rw [firstDropFrom, dif_neg h] at hj2
    omega

lemma firstDropFrom_stop (c : List ℚ) (i : ℕ)
    (h : firstDropFrom c i < c.length - 1) :
    c.getD (firstDropFrom c i + 1) 0 < c.getD (firstDropFrom c i) 0 := by
  induction i using firstDropFrom.induct c with
  | case1 x hx ih =>
    rw [firstDropFrom, dif_pos hx] at h ⊢
    exact ih h
  | case2 x hx =>
    rw [firstDropFrom, dif_neg hx] at h ⊢
    push_neg at hx
    exact hx h

/-! ### Analysis of the peak-search fold -/

lemma foldl_peakStep_mem (c : List ℚ) :
    ∀ (l : List ℕ) (p : ℕ), l.foldl (peakStep c) p = p ∨ l.foldl (peakStep c) p ∈ l := by
  intro l
  induction l with
  | nil => intro p; left; rfl
  | cons a t ih =>
    intro p
    simp only [List.foldl_cons]
    rcases ih (peakStep c p a) with h | h
    · rw [h]
      unfold peakStep
      split
      · right; simp
      · left; rfl
    · right; simp [h]

lemma foldl_peakStep_ge (c : List ℚ) :
    ∀ (l : List ℕ) (p : ℕ), c.getD p 0 ≤ c.getD (l.foldl (peakStep c) p) 0 := by
  intro l
  induction l with
  | nil => intro p; simp
  | cons a t ih =>
    intro p
    simp only [List.foldl_cons]
    refine le_trans ?_ (ih (peakStep c p a))
    unfold peakStep
    split
    · exact le_of_lt (by assumption)
    · exact le_rfl

lemma foldl_peakStep_max (c : List ℚ) :
    ∀ (l : List ℕ) (p : ℕ), ∀ i ∈ l, c.getD i 0 ≤ c.getD (l.foldl (peakStep c) p) 0 := by
  intro l
  induction l with
  | nil => intro p i hi; cases hi
  | cons a t ih =>
    intro p i hi
    simp only [List.foldl_cons]
    rcases List.mem_cons.mp hi with rfl | hi
    · have h1 : c.getD i 0 ≤ c.getD (peakStep c p i) 0 := by
        unfold peakStep
        split
        · exact le_rfl
        · exact le_of_not_lt (by assumption)
      exact le_trans h1 (foldl_peakStep_ge c t (peakStep c p i))
    · exact ih (peakStep c p a) i hi

lemma foldl_peakStep_ne (c : List ℚ) :
    ∀ (l : List ℕ) (p : ℕ), l.foldl (peakStep c) p ≠ p →
      c.getD p 0 < c.getD (l.foldl (peakStep c) p) 0 := by
  intro l
  induction l with
  | nil => intro p h; exact absurd rfl h
  | cons a t ih =>
    intro p hne
    simp only [List.foldl_cons] at hne ⊢
    by_cases hc : c.getD p 0 < c.getD a 0
    · have h1 : c.getD p 0 < c.getD (peakStep c p a) 0 := by
        unfold peakStep; rw [if_pos hc]; exact hc
      exact lt_of_lt_of_le h1 (foldl_peakStep_ge c t (peakStep c p a))
    · have hstep : peakStep c p a = p := by unfold peakStep; rw [if_neg hc]
      rw [hstep] at hne ⊢
      exact ih p hne

lemma foldl_peakStep_first (c : List ℚ) :
    ∀ (l : List ℕ) (p : ℕ), (∀ i ∈ l, p < i) → l.Pairwise (· < ·) →
      ∀ i, (i = p ∨ i ∈ l) → i < l.foldl (peakStep c) p →
        c.getD i 0 < c.getD (l.foldl (peakStep c) p) 0 := by
  intro l
  induction l with
  | nil =>
    intro p _ _ i hi hlt
    rcases hi with rfl | h
    · simp only [List.foldl_nil] at hlt; omega
    · cases h
  | cons a t ih =>
    intro p hgt hpw i hi hlt
    have hpa : p < a := hgt a (by simp)
    have hta : ∀ j ∈ t, a < j := fun j hj => (List.pairwise_cons.mp hpw).1 j hj
    have hpw' : t.Pairwise (· < ·) := (List.pairwise_cons.mp hpw).2
    simp only [List.foldl_cons] at hlt ⊢
    by_cases hc : c.getD p 0 < c.getD a 0
    · have hstep : peakStep c p a = a := by unfold peakStep; rw [if_pos hc]
      rw [hstep] at hlt ⊢
      rcases hi with rfl | hi
      · -- i = p: the running value strictly increased at step a
        calc c.getD i 0 < c.getD a 0 := hc
          _ ≤ _ := foldl_peakStep_ge c t a
      · rcases List.mem_cons.mp hi with he | hi
        · exact ih a hta hpw' i (Or.inl he) hlt
        · exact ih a hta hpw' i (Or.inr hi) hlt
    · have hstep : peakStep c p a = p := by unfold peakStep; rw [if_neg hc]
      rw [hstep] at hlt ⊢
      have hgt' : ∀ j ∈ t, p < j := fun j hj => lt_trans hpa (hta j hj)
      rcases hi with he | hi
      · exact ih p hgt' hpw' i (Or.inl he) hlt
      · rcases List.mem_cons.mp hi with he | hi
        · -- i = a, with c.getD a 0 ≤ c.getD p 0
          have hr : t.foldl (peakStep c) p = p ∨ t.foldl (peakStep c) p ∈ t :=
            foldl_peakStep_mem c t p
          rcases hr with hr | hr
          · rw [hr] at hlt; omega
          · have hne : t.foldl (peakStep c) p ≠ p := by
              intro hee; rw [hee] at hlt; omega
            calc c.getD i 0 ≤ c.getD p 0 := by rw [he]; exact le_of_not_lt hc
              _ < _ := foldl_peakStep_ne c t p hne
        · exact ih p hgt' hpw' i (Or.inr hi) hlt

/-- Bounds on the selected peak index: it starts at `firstDropIndex + 1` and
only moves to loop counters below `c.length - 1`. -/
lemma peakIndex_bounds (c : List ℚ) :
    firstDropIndex c + 1 ≤ peakIndex c ∧
      (peakIndex c = firstDropIndex c + 1 ∨ peakIndex c < c.length - 1) := by
  unfold peakIndex peakFold
  rcases foldl_peakStep_mem c
      (List.range' (firstDropIndex c + 1) (c.length - 1 - (firstDropIndex c + 1)))
      (firstDropIndex c + 1) with h | h
  · rw [h]; exact ⟨le_rfl, Or.inl rfl⟩
  · rw [List.mem_range'_1] at h
    exact ⟨by omega, Or.inr (by omega)⟩

lemma peakStep_self (c : List ℚ) (p : ℕ) : peakStep c p p = p := by
  unfold peakStep
  simp

/-- The first iteration of the peak loop compares the initial peak with
itself, so the fold over the full counter range equals the fold over its
tail. -/
lemma peakFold_succ (c : List ℚ) (start n : ℕ) :
    peakFold c start (n + 1) = (List.range' (start + 1) n).foldl (peakStep c) start := by
  unfold peakFold
  rw [List.range'_succ]
  simp only [List.foldl_cons, peakStep_self]

/-- Claim C4 (amended): the walk advances while the correlation sequence is
non-decreasing and stops at the first strict decrease; the peak search starts
at `firstDropIndex + 1` and selects, among lags `i` with
`firstDropIndex + 1 ≤ i < length - 1`, the first lag attaining the maximum
correlation; the returned pitch is `sampleRate / peakIndex` rounded to the
nearest 0.1 Hz. -/
theorem C4_pitch_peak_amended (sr : ℚ) (s : List ℚ) :
    (∀ j, j < firstDropIndex (correlations sr s) →
      (correlations sr s).getD j 0 ≤ (correlations sr s).getD (j + 1) 0) ∧
    (firstDropIndex (correlations sr s) < (correlations sr s).length - 1 →
      (correlations sr s).getD (firstDropIndex (correlations sr s) + 1) 0 <
        (correlations sr s).getD (firstDropIndex (correlations sr s)) 0) ∧
    firstDropIndex (correlations sr s) + 1 ≤ peakIndex (correlations sr s) ∧
    (∀ i, firstDropIndex (correlations sr s) + 1 ≤ i →
      i + 1 < (correlations sr s).length →
      (correlations sr s).getD i 0 ≤
        (correlations sr s).getD (peakIndex (correlations sr s)) 0) ∧
    (∀ i, firstDropIndex (correlations sr s) + 1 ≤ i →
      i < peakIndex (correlations sr s) →
      (correlations sr s).getD i 0 <
        (correlations sr s).getD (peakIndex (correlations sr s)) 0) ∧
    detectPitch sr s =
      (jsRound (sr / (peakIndex (correlations sr s) : ℚ) * 10) : ℚ) / 10 := by
  set c := correlations sr s with hc
  set d := firstDropIndex c with hd
  refine ⟨fun j hj => firstDropFrom_prefix c 0 j (Nat.zero_le j) hj,
    fun h => firstDropFrom_stop c 0 h, (peakIndex_bounds c).1, ?_, ?_, rfl⟩
  · -- every scanned lag is ≤ the selected peak
    intro i hi1 hi2
    cases hcnt : c.length - 1 - (d + 1) with
    | zero => omega
    | succ k =>
      have hpk : peakIndex c = (List.range' (d + 2) k).foldl (peakStep c) (d + 1) := by
        unfold peakIndex
        rw [← hd, hcnt, peakFold_succ]
      rw [hpk]
      rcases Nat.eq_or_lt_of_le hi1 with he | hlt
      · rw [← he]
        exact foldl_peakStep_ge c _ _
      · refine foldl_peakStep_max c _ _ i ?_
        rw [List.mem_range'_1]
        omega
  · -- the selected peak is the first lag attaining the maximum
    intro i hi1 hi2
    rcases (peakIndex_bounds c).2 with he | hlt
    · omega
    cases hcnt : c.length - 1 - (d + 1) with
    | zero => omega
    | succ k =>
      have hpk : peakIndex c = (List.range' (d + 2) k).foldl (peakStep c) (d + 1) := by
        unfold peakIndex
        rw [← hd, hcnt, peakFold_succ]
      rw [hpk] at hi2 ⊢
      refine foldl_peakStep_first c (List.range' (d + 2) k) (d + 1)
        (fun j hj => by rw [List.mem_range'_1] at hj; omega)
        (List.pairwise_lt_range' _ _) i ?_ hi2
      rcases Nat.eq_or_lt_of_le hi1 with he2 | hlt2
      · exact Or.inl he2.symm
      · refine Or.inr ?_
        rw [List.mem_range'_1]
        have := (peakIndex_bounds c).1
        rw [hpk] at hlt this
        omega

/-- Claim C10: the peak-search index is initialized to `firstDropIndex + 1`
and never decreases, so it is at least 1 and the division `sampleRate /
peakIndex` has a nonzero denominator; for every buffer and every sample rate
≥ 1 (the data model requires a positive integer rate) the returned pitch is a
finite, strictly positive rational. -/
theorem C10_no_division_by_zero (sr : ℚ) (s : List ℚ) (hsr : 1 ≤ sr) :
    firstDropIndex (correlations sr s) + 1 ≤ peakIndex (correlations sr s) ∧
    1 ≤ peakIndex (correlations sr s) ∧
    0 < detectPitch sr s := by
  set c := correlations sr s with hc
  have hb := peakIndex_bounds c
  have hlen : c.length = maxLag sr := by
    rw [hc]
    unfold correlations
    simp
  have hd : firstDropIndex c ≤ c.length - 1 := firstDropFrom_le c 0 (Nat.zero_le _)
  have hple : peakIndex c ≤ max 1 (maxLag sr) := by
    rcases hb.2 with he | hlt
    · omega
    · omega
  have hsr0 : (0 : ℚ) < sr := lt_of_lt_of_le one_pos hsr
  have hml : ((maxLag sr : ℕ) : ℚ) ≤ sr / 60 := by
    unfold maxLag
    have h0 : (0 : ℚ) ≤ sr / 60 := le_of_lt (by positivity)
    have h1 : (0 : ℤ) ≤ ⌊sr / 60⌋ := Int.floor_nonneg.mpr h0
    have h2 : ((⌊sr / 60⌋.toNat : ℕ) : ℤ) = ⌊sr / 60⌋ := Int.toNat_of_nonneg h1
    have h3 : ((⌊sr / 60⌋ : ℤ) : ℚ) ≤ sr / 60 := Int.floor_le _
    exact_mod_cast h2 ▸ h3
  have hp1 : 1 ≤ peakIndex c := by omega
  have hpq : ((peakIndex c : ℕ) : ℚ) ≤ 20 * sr := by
    have h1 : ((peakIndex c : ℕ) : ℚ) ≤ ((max 1 (maxLag sr) : ℕ) : ℚ) := by
      exact_mod_cast hple
    refine le_trans h1 ?_
    have h2 : ((max 1 (maxLag sr) : ℕ) : ℚ) = max 1 ((maxLag sr : ℕ) : ℚ) := by
      push_cast
      rfl
    rw [h2]
    refine max_le ?_ ?_
    · linarith
    · refine le_trans hml ?_
      rw [div_le_iff (by norm_num : (0:ℚ) < 60)]
      nlinarith
  have hpq0 : (0 : ℚ) < ((peakIndex c : ℕ) : ℚ) := by exact_mod_cast hp1
  have hfreq : (1 : ℚ) / 20 ≤ sr / ((peakIndex c : ℕ) : ℚ) := by
    rw [div_le_div_iff (by norm_num) hpq0]
    nlinarith
  have hround : (1 : ℤ) ≤ jsRound (sr / ((peakIndex c : ℕ) : ℚ) * 10) := by
    apply le_jsRound
    push_cast
    linarith
  refine ⟨hb.1, hp1, ?_⟩
  show 0 < detectPitch sr s
  have : detectPitch sr s =
      (jsRound (sr / ((peakIndex c : ℕ) : ℚ) * 10) : ℚ) / 10 := rfl
  rw [this]
  have h4 : (1 : ℚ) ≤ (jsRound (sr / ((peakIndex c : ℕ) : ℚ) * 10) : ℚ) := by
    exact_mod_cast hround
  linarith

/-! ### Analysis of the energy profile -/

lemma energyProfileFrom_nil (sq : ℚ → ℚ) (s : List ℚ) (ws i : ℕ)
    (h : s.length ≤ i ∨ ws = 0) : energyProfileFrom sq s ws i = [] := by
  rw [energyProfileFrom, dif_neg]
  omega

lemma energyProfileFrom_cons (sq : ℚ → ℚ) (s : List ℚ) (ws i : ℕ)
    (h1 : i < s.length) (h2 : 0 < ws) :
    energyProfileFrom sq s ws i =
      sq (((List.range' i (min (i + ws) s.length - i)).map
          (fun j => s.getD j 0 * s.getD j 0)).sum
        / ((min (i + ws) s.length - i : ℕ) : ℚ)) ::
        energyProfileFrom sq s ws (i + ws) := by
  rw [energyProfileFrom, dif_pos ⟨h1, h2⟩]

lemma energyProfileFrom_length (sq : ℚ → ℚ) (s : List ℚ) (ws : ℕ) (hws : 0 < ws) :
    ∀ i, i < s.length →
      ws * ((energyProfileFrom sq s ws i).length - 1) < s.length - i ∧
      s.length - i ≤ ws * (energyProfileFrom sq s ws i).length := by
  intro i
  induction i using energyProfileFrom.induct sq s ws with
  | case1 x hx ih =>
    intro _
    rw [energyProfileFrom_cons sq s ws x hx.1 hws]
    simp only [List.length_cons]
    by_cases hnext : x + ws < s.length
    · obtain ⟨m, hm⟩ : ∃ m, (energyProfileFrom sq s ws (x + ws)).length = m + 1 := by
        rw [energyProfileFrom_cons sq s ws (x + ws) hnext hws]
        exact ⟨(energyProfileFrom sq s ws (x + ws + ws)).length, rfl⟩
      have hb := ih hnext
      rw [hm] at hb ⊢
      have e0 : m + 1 - 1 = m := by omega
      have e0' : m + 1 + 1 - 1 = m + 1 := by omega
      rw [e0] at hb
      rw [e0']
      have e1 : ws * (m + 1) = ws * m + ws := by ring
      have e4 : ws * (m + 1 + 1) = ws * m + ws + ws := by ring
      rw [e1] at hb ⊢
      rw [e4]
      omega
    · rw [energyProfileFrom_nil sq s ws (x + ws) (Or.inl (by omega))]
      simp only [List.length_nil]
      omega
  | case2 x hx =>
    intro hlt
    omega

lemma energyProfileFrom_getD (sq : ℚ → ℚ) (s : List ℚ) (ws : ℕ) (hws : 0 < ws) :
    ∀ (w i : ℕ), i + w * ws < s.length →
      (energyProfileFrom sq s ws i).getD w 0 =
        sq (((List.range' (i + w * ws)
            (min (i + w * ws + ws) s.length - (i + w * ws))).map
            (fun j => s.getD j 0 * s.getD j 0)).sum
          / ((min (i + w * ws + ws) s.length - (i + w * ws) : ℕ) : ℚ)) := by
  intro w
  induction w with
  | zero =>
    intro i hi
    simp only [Nat.zero_mul, Nat.add_zero] at hi ⊢
    rw [energyProfileFrom_cons sq s ws i hi hws]
    rfl
  | succ w ih =>
    intro i hi
    have hi0 : i < s.length := by
      have : 0 < (w + 1) * ws := by positivity
      omega
    rw [energyProfileFrom_cons sq s ws i hi0 hws]
    rw [List.getD_cons_succ]
    have harg : i + ws + w * ws = i + (w + 1) * ws := by ring
    have := ih (i + ws) (by omega)
    rw [harg] at this
    exact this

/-- Claim C6: for every non-empty buffer (and a window size of at least one
sample, i.e. `sampleRate ≥ 50`), the energy profile has `⌈length / ws⌉`
entries; entry `w` is the square root of the mean of the squared samples of
window `w`, the final window being divided by its actual length; and every
entry is non-negative. -/
theorem C6_energy_profile (sq : ℚ → ℚ) (sr : ℚ) (s : List ℚ)
    (hsq : SqrtOK sq) (hws : 0 < windowSize sr) (hs : s ≠ []) :
    (((buildEnergyProfile sq s (windowSize sr)).length : ℕ) : ℤ) =
      ⌈(s.length : ℚ) / ((windowSize sr : ℕ) : ℚ)⌉ ∧
    (∀ w, w < (buildEnergyProfile sq s (windowSize sr)).length →
      (buildEnergyProfile sq s (windowSize sr)).getD w 0 =
        sq ((((List.range' (w * windowSize sr)
            (min (w * windowSize sr + windowSize sr) s.length - w * windowSize sr)).map
            (fun j => s.getD j 0 * s.getD j 0)).sum)
          / ((min (w * windowSize sr + windowSize sr) s.length
              - w * windowSize sr : ℕ) : ℚ))) ∧
    (∀ w, w < (buildEnergyProfile sq s (windowSize sr)).length →
      0 ≤ (buildEnergyProfile sq s (windowSize sr)).getD w 0) := by
  unfold buildEnergyProfile
  set ws := windowSize sr with hwsdef
  have hn : 0 < s.length := List.length_pos.mpr hs
  have hb := energyProfileFrom_length sq s ws hws 0 hn
  simp only [Nat.sub_zero] at hb
  set L := (energyProfileFrom sq s ws 0).length with hL
  have hL1 : 1 ≤ L := by
    rcases Nat.eq_zero_or_pos L with h0 | h1
    · exfalso
      have h2 := hb.2
      rw [h0, Nat.mul_zero] at h2
      omega
    · exact h1
  have hgetD : ∀ w, w < L →
      (energyProfileFrom sq s ws 0).getD w 0 =
        sq ((((List.range' (w * ws) (min (w * ws + ws) s.length - w * ws)).map
            (fun j => s.getD j 0 * s.getD j 0)).sum)
          / ((min (w * ws + ws) s.length - w * ws : ℕ) : ℚ)) := by
    intro w hw
    have hwlt : 0 + w * ws < s.length := by
      have h1 : w ≤ L - 1 := by omega
      have h2 : ws * w ≤ ws * (L - 1) := Nat.mul_le_mul_left ws h1
      have h3 : ws * w = w * ws := Nat.mul_comm ws w
      omega
    have := energyProfileFrom_getD sq s ws hws w 0 hwlt
    simpa using this
  refine ⟨?_, hgetD, ?_⟩
  · -- length = ceiling of sample count over window size
    have hws0 : (0 : ℚ) < ((ws : ℕ) : ℚ) := by exact_mod_cast hws
    refine (Int.ceil_eq_iff.mpr ⟨?_, ?_⟩).symm
    · rw [lt_div_iff hws0]
      have h1 : ((ws : ℕ) : ℚ) * (((L : ℕ) : ℚ) - 1) < ((s.length : ℕ) : ℚ) := by
        have hcast : ((ws * (L - 1) : ℕ) : ℚ) < ((s.length : ℕ) : ℚ) := by
          exact_mod_cast hb.1
        rwa [Nat.cast_mul, Nat.cast_sub hL1, Nat.cast_one] at hcast
      push_cast
      linarith
    · rw [div_le_iff hws0]
      have h2 : ((s.length : ℕ) : ℚ) ≤ ((ws : ℕ) : ℚ) * ((L : ℕ) : ℚ) := by
        exact_mod_cast hb.2
      push_cast
      linarith
  · intro w hw
    rw [hgetD w hw]
    refine hsq.2 _ ?_
    refine div_nonneg ?_ (by positivity)
    refine List.sum_nonneg ?_
    intro x hx
    rw [List.mem_map] at hx
    obtain ⟨j, _, rfl⟩ := hx
    exact mul_self_nonneg _

/-! ### Onset detection (claim C7) -/

/-- Claim C7: index `i` is reported as an onset iff `1 ≤ i ≤ length - 2` and
`profile[i]` exceeds the dynamic threshold `mean + 1.5·stddev` (population
variance), is strictly greater than its left neighbour and ≥ its right
neighbour; the onset list is strictly increasing (hence duplicate-free). -/
theorem C7_onset_characterization (sq : ℚ → ℚ) (p : List ℚ) :
    (∀ i : ℕ, i ∈ findOnsets sq p ↔
      (1 ≤ i ∧ i ≤ p.length - 2 ∧
        p.sum / (p.length : ℚ) +
          3/2 * sq (((p.map (fun v => (v - p.sum / (p.length : ℚ)) ^ 2)).sum)
            / (p.length : ℚ)) < p.getD i 0 ∧
        p.getD (i - 1) 0 < p.getD i 0 ∧
        p.getD (i + 1) 0 ≤ p.getD i 0)) ∧
    List.Pairwise (· < ·) (findOnsets sq p) := by
  constructor
  · intro i
    simp only [findOnsets, calculateDynamicThreshold, List.mem_filter,
      List.mem_range'_1, Bool.and_eq_true, decide_eq_true_eq]
    constructor
    · rintro ⟨⟨h1, h2⟩, ⟨h3, h4⟩, h5⟩
      exact ⟨h1, by omega, h3, h4, h5⟩
    · rintro ⟨h1, h2, h3, h4, h5⟩
      exact ⟨⟨h1, by omega⟩, ⟨h3, h4⟩, h5⟩
  · exact List.Pairwise.sublist (List.filter_sublist _) (List.pairwise_lt_range' _ _)

/-! ### The interval histogram (claim C5) -/

lemma insertKey_mem (k : ℤ) :
    ∀ (l : List ℤ) (m : ℤ), m ∈ insertKey k l ↔ m = k ∨ m ∈ l := by
  intro l
  induction l with
  | nil => intro m; simp [insertKey]
  | cons x xs ih =>
    intro m
    unfold insertKey
    by_cases h1 : k < x
    · rw [if_pos h1]
      simp [List.mem_cons]
    · rw [if_neg h1]
      by_cases h2 : k = x
      · rw [if_pos h2]
        subst h2
        simp [List.mem_cons]
      · rw [if_neg h2]
        simp only [List.mem_cons, ih]
        tauto

lemma insertKey_pairwise (k : ℤ) :
    ∀ (l : List ℤ), l.Pairwise (· < ·) → (insertKey k l).Pairwise (· < ·) := by
  intro l
  induction l with
  | nil => intro _; simp [insertKey]
  | cons x xs ih =>
    intro hpw
    obtain ⟨hx, hxs⟩ := List.pairwise_cons.mp hpw
    unfold insertKey
    by_cases h1 : k < x
    · rw [if_pos h1]
      refine List.pairwise_cons.mpr ⟨?_, hpw⟩
      intro m hm
      rcases List.mem_cons.mp hm with rfl | hm
      · exact h1
      · exact lt_trans h1 (hx m hm)
    · rw [if_neg h1]
      by_cases h2 : k = x
      · rw [if_pos h2]
        exact hpw
      · rw [if_neg h2]
        refine List.pairwise_cons.mpr ⟨?_, ih hxs⟩
        intro m hm
        rcases (insertKey_mem k xs m).mp hm with rfl | hm
        · omega
        · exact hx m hm

lemma foldl_insertKey_pairwise :
    ∀ (L acc : List ℤ), acc.Pairwise (· < ·) →
      (L.foldl (fun acc k => insertKey k acc) acc).Pairwise (· < ·) := by
  intro L
  induction L with
  | nil => intro acc h; exact h
  | cons a t ih =>
    intro acc h
    exact ih _ (insertKey_pairwise a acc h)

lemma foldl_insertKey_mem :
    ∀ (L acc : List ℤ) (m : ℤ),
      m ∈ L.foldl (fun acc k => insertKey k acc) acc ↔ m ∈ acc ∨ m ∈ L := by
  intro L
  induction L with
  | nil => intro acc m; simp
  | cons a t ih =>
    intro acc m
    simp only [List.foldl_cons, ih, insertKey_mem, List.mem_cons]
    tauto

lemma histKeys_pairwise (ints : List ℤ) : (histKeys ints).Pairwise (· < ·) :=
  foldl_insertKey_pairwise _ [] List.Pairwise.nil

lemma histKeys_mem (ints : List ℤ) (m : ℤ) :
    m ∈ histKeys ints ↔ m ∈ normalizedIntervals ints := by
  unfold histKeys
  rw [foldl_insertKey_mem]
  simp

lemma winnerFold_ge (cnt : ℤ → ℕ) :
    ∀ (l : List ℤ) (st : ℤ × ℕ), st.2 ≤ (winnerFold cnt l st).2 := by
  intro l
  induction l with
  | nil => intro st; exact le_rfl
  | cons a t ih =>
    intro st
    unfold winnerFold at ih ⊢
    simp only [List.foldl_cons]
    by_cases hc : st.2 < cnt a
    · rw [if_pos hc]
      exact le_trans (le_of_lt hc) (ih (a, cnt a))
    · rw [if_neg hc]
      exact ih st

lemma winnerFold_mem (cnt : ℤ → ℕ) :
    ∀ (l : List ℤ) (st : ℤ × ℕ), winnerFold cnt l st = st ∨
      ((winnerFold cnt l st).1 ∈ l ∧ (winnerFold cnt l st).2 = cnt (winnerFold cnt l st).1) := by
  intro l
  induction l with
  | nil => intro st; left; rfl
  | cons a t ih =>
    intro st
    unfold winnerFold at ih ⊢
    simp only [List.foldl_cons]
    by_cases hc : st.2 < cnt a
    · rw [if_pos hc]
      rcases ih (a, cnt a) with h | h
      · right
        rw [h]
        exact ⟨by simp, rfl⟩
      · right
        exact ⟨List.mem_cons_of_mem a h.1, h.2⟩
    · rw [if_neg hc]
      rcases ih st with h | h
      · left; exact h
      · right
        exact ⟨List.mem_cons_of_mem a h.1, h.2⟩

lemma winnerFold_max (cnt : ℤ → ℕ) :
    ∀ (l : List ℤ) (st : ℤ × ℕ), ∀ k ∈ l, cnt k ≤ (winnerFold cnt l st).2 := by
  intro l
  induction l with
  | nil => intro st k hk; cases hk
  | cons a t ih =>
    intro st k hk
    unfold winnerFold at ih ⊢
    simp only [List.foldl_cons]
    rcases List.mem_cons.mp hk with rfl | hk
    · by_cases hc : st.2 < cnt k
      · rw [if_pos hc]
        have := winnerFold_ge cnt t (k, cnt k)
        unfold winnerFold at this
        exact le_trans (le_refl (cnt k)) (by simpa using this)
      · rw [if_neg hc]
        have := winnerFold_ge cnt t st
        unfold winnerFold at this
        omega
    · by_cases hc : st.2 < cnt a
      · rw [if_pos hc]
        exact ih (a, cnt a) k hk
      · rw [if_neg hc]
        exact ih st k hk

lemma winnerFold_ne (cnt : ℤ → ℕ) :
    ∀ (l : List ℤ) (st : ℤ × ℕ), winnerFold cnt l st ≠ st →
      st.2 < (winnerFold cnt l st).2 := by
  intro l
  induction l with
  | nil => intro st h; exact absurd rfl h
  | cons a t ih =>
    intro st hne
    unfold winnerFold at ih hne ⊢
    simp only [List.foldl_cons] at hne ⊢
    by_cases hc : st.2 < cnt a
    · rw [if_pos hc] at hne ⊢
      have := winnerFold_ge cnt t (a, cnt a)
      unfold winnerFold at this
      calc st.2 < cnt a := hc
        _ ≤ _ := by simpa using this
    · rw [if_neg hc] at hne ⊢
      exact ih st hne

lemma winnerFold_first (cnt : ℤ → ℕ) :
    ∀ (l : List ℤ) (st : ℤ × ℕ), l.Pairwise (· < ·) →
      ∀ k ∈ l, cnt k = (winnerFold cnt l st).2 →
        winnerFold cnt l st = st ∨ (winnerFold cnt l st).1 ≤ k := by
  intro l
  induction l with
  | nil => intro st _ k hk; cases hk
  | cons a t ih =>
    intro st hpw k hk hcnt
    obtain ⟨ha, hpw'⟩ := List.pairwise_cons.mp hpw
    unfold winnerFold at ih hcnt ⊢
    simp only [List.foldl_cons] at hcnt ⊢
    by_cases hc : st.2 < cnt a
    · rw [if_pos hc] at hcnt ⊢
      rcases List.mem_cons.mp hk with rfl | hk
      · -- k = a; the result either is (a, cnt a) or has strictly larger count
        rcases winnerFold_mem cnt t (k, cnt k) with h | h
        · unfold winnerFold at h
          right
          rw [h]
        · by_cases he : List.foldl (fun st k => if st.2 < cnt k then (k, cnt k) else st)
              (k, cnt k) t = (k, cnt k)
          · right; rw [he]
          · have := winnerFold_ne cnt t (k, cnt k)
            unfold winnerFold at this
            have h2 := this he
            simp only at h2
            omega
      · rcases ih (a, cnt a) hpw' k hk hcnt with h | h
        · right
          rw [h]
          exact le_of_lt (ha k hk)
        · right; exact h
    · rw [if_neg hc] at hcnt ⊢
      rcases List.mem_cons.mp hk with rfl | hk
      · -- k = a with cnt a ≤ st.2: the result must equal st
        have hge := winnerFold_ge cnt t st
        unfold winnerFold at hge
        have heq : (List.foldl (fun st k => if st.2 < cnt k then (k, cnt k) else st) st t).2
            = st.2 := by omega
        rcases winnerFold_mem cnt t st with h | h
        · left; exact h
        · unfold winnerFold at h
          by_cases he : List.foldl (fun st k => if st.2 < cnt k then (k, cnt k) else st) st t = st
          · left; exact he
          · have := winnerFold_ne cnt t st
            unfold winnerFold at this
            have h2 := this he
            omega
      · exact ih st hpw' k hk hcnt

/-- Claim C5 (amended): intervals are bucketed by `round(interval/2)*2`; the
winning bucket has the maximum count, and a tie between buckets is won by the
numerically smallest bucket (JavaScript `Object.entries` enumerates
integer-like keys in ascending numeric order, so the scan sees the smallest
tied bucket first and `count > maxCount` never lets a later equal count win). -/
theorem C5_histogram_amended (ints : List ℤ) (hne : ints ≠ []) :
    mostCommonInterval ints ∈ normalizedIntervals ints ∧
    (∀ k ∈ normalizedIntervals ints,
      histCount ints k ≤ histCount ints (mostCommonInterval ints)) ∧
    (∀ k ∈ normalizedIntervals ints,
      histCount ints k = histCount ints (mostCommonInterval ints) →
        mostCommonInterval ints ≤ k) ∧
    (∀ j : ℤ, normalizeInterval j = jsRound ((j : ℚ) / 2) * 2) := by
  have hnorm : normalizedIntervals ints ≠ [] := by
    unfold normalizedIntervals
    simpa using hne
  obtain ⟨k0, hk0⟩ := List.exists_mem_of_ne_nil _ hnorm
  have hk0' : k0 ∈ histKeys ints := (histKeys_mem ints k0).mpr hk0
  have hcnt0 : 0 < histCount ints k0 := by
    unfold histCount
    exact List.count_pos_iff.mpr hk0
  have hrne : winnerFold (histCount ints) (histKeys ints) (0, 0) ≠ ((0 : ℤ), (0 : ℕ)) := by
    intro he
    have := winnerFold_max (histCount ints) (histKeys ints) (0, 0) k0 hk0'
    rw [he] at this
    simp at this
    omega
  obtain ⟨hmem, hval⟩ :
      (winnerFold (histCount ints) (histKeys ints) (0, 0)).1 ∈ histKeys ints ∧
        (winnerFold (histCount ints) (histKeys ints) (0, 0)).2 =
          histCount ints (winnerFold (histCount ints) (histKeys ints) (0, 0)).1 := by
    rcases winnerFold_mem (histCount ints) (histKeys ints) (0, 0) with h | h
    · exact absurd h hrne
    · exact h
  have hmc : mostCommonInterval ints =
      (winnerFold (histCount ints) (histKeys ints) (0, 0)).1 := rfl
  refine ⟨?_, ?_, ?_, fun j => rfl⟩
  · rw [hmc]
    exact (histKeys_mem ints _).mp hmem
  · intro k hk
    rw [hmc, ← hval]
    exact winnerFold_max (histCount ints) (histKeys ints) (0, 0) k
      ((histKeys_mem ints k).mpr hk)
  · intro k hk hkeq
    rcases winnerFold_first (histCount ints) (histKeys ints) (0, 0)
        (histKeys_pairwise ints) k ((histKeys_mem ints k).mpr hk)
        (by rw [hkeq, hmc, ← hval]) with h | h
    · exact absurd h hrne
    · rw [hmc]; exact h

/-! ### Range correction (claim C3) -/

/-- Claim C3 (amended): the correction is applied at most once in each
direction (`bpm > 240` halves once, then `bpm < 60` doubles once) and the
result is rounded half-up to an integer; the output lies in [60, 240] for
every raw BPM in [30, 480] (outside that range a single correction is not
enough: e.g. raw 1500 yields 750). -/
theorem C3_range_correction_amended (b : ℚ) (h1 : 30 ≤ b) (h2 : b ≤ 480) :
    ∃ m : ℤ, (rangeCorrect (JSVal.fin b)).roundToInt = JSVal.fin (m : ℚ) ∧
      60 ≤ m ∧ m ≤ 240 ∧
      (240 < b → m = jsRound (b / 2)) ∧
      (b < 60 → m = jsRound (b * 2)) ∧
      (60 ≤ b → b ≤ 240 → m = jsRound b) := by
  by_cases hc1 : 240 < b
  · have hrc : rangeCorrect (JSVal.fin b) = JSVal.fin (b / 2) := by
      unfold rangeCorrect
      have hg : (JSVal.fin b).gtQ 240 = true := by simp [JSVal.gtQ, hc1]
      rw [if_pos hg]
      have hl : ((JSVal.fin b).divQ 2).ltQ 60 = false := by
        simp only [JSVal.divQ, JSVal.ltQ, decide_eq_false_iff_not]
        linarith
      rw [if_neg (by rw [hl]; simp)]
      rfl
    rw [hrc]
    refine ⟨jsRound (b / 2), rfl, ?_, ?_, fun _ => rfl, ?_, ?_⟩
    · exact le_jsRound _ 60 (by linarith)
    · exact jsRound_le _ 240 (by push_cast; linarith)
    · intro hlt; linarith
    · intro _ hle; linarith
  · have hg : (JSVal.fin b).gtQ 240 = false := by
      simp only [JSVal.gtQ, decide_eq_false_iff_not]
      linarith
    have hif : (if (JSVal.fin b).gtQ 240 = true then (JSVal.fin b).divQ 2
        else JSVal.fin b) = JSVal.fin b := if_neg (by rw [hg]; simp)
    by_cases hc2 : b < 60
    · have hrc : rangeCorrect (JSVal.fin b) = JSVal.fin (b * 2) := by
        unfold rangeCorrect
        rw [hif]
        have hl : (JSVal.fin b).ltQ 60 = true := by simp [JSVal.ltQ, hc2]
        rw [if_pos hl]
        rfl
      rw [hrc]
      refine ⟨jsRound (b * 2), rfl, ?_, ?_, ?_, fun _ => rfl, ?_⟩
      · exact le_jsRound _ 60 (by linarith)
      · exact jsRound_le _ 240 (by push_cast; linarith)
      · intro hlt; linarith
      · intro hge _; linarith
    · have hrc : rangeCorrect (JSVal.fin b) = JSVal.fin b := by
        unfold rangeCorrect
        rw [hif]
        have hl : (JSVal.fin b).ltQ 60 = false := by
          simp only [JSVal.ltQ, decide_eq_false_iff_not]
          linarith
        rw [if_neg (by rw [hl]; simp)]
      rw [hrc]
      refine ⟨jsRound b, rfl, ?_, ?_, ?_, ?_, fun _ _ => rfl⟩
      · exact le_jsRound _ 60 (by push_cast; linarith)
      · exact jsRound_le _ 240 (by push_cast; linarith)
      · intro hlt; linarith
      · intro hlt; linarith

/-! ### Autocorrelation window (claim C8) -/

/-- Claim C8: there is one correlation per lag in `[0, maxLag)` with
`maxLag = ⌊sampleRate / 60⌋`, and whenever the comparison window fits inside
the buffer at lag `L`, `corr(L)` is exactly the sum of
`sample[i] * sample[i+L]` over the fixed window `i ∈ [0, ⌊length/3⌋)`. -/
theorem C8_autocorrelation (sr : ℚ) (s : List ℚ) (L : ℕ)
    (hL : L < maxLag sr) (hlen : comparisonSamples s.length + L ≤ s.length) :
    (correlations sr s).length = (⌊sr / 60⌋).toNat ∧
    (correlations sr s).getD L 0 =
      ((List.range (s.length / 3)).map (fun i => s.getD i 0 * s.getD (i + L) 0)).sum := by
  constructor
  · unfold correlations maxLag
    simp
  · unfold correlations
    rw [List.getD_eq_getElem?_getD, List.getElem?_map,
      List.getElem?_range (by simpa [maxLag] using hL)]
    simp only [Option.map_some', Option.getD_some]
    unfold corrAt comparisonSamples
    congr 1
    refine List.map_congr_left ?_
    intro i hi
    rw [List.mem_range] at hi
    rw [if_pos]
    unfold comparisonSamples at hlen
    omega

/-! ### Determinism (claim C9) -/

/-- Claim C9: `detectPitch` and `estimateTempo` are pure functions of the
square-root routine, the sample rate and the buffer: identical inputs give
identical outputs (there is no hidden state to vary between calls). -/
theorem C9_determinism (sq sq2 : ℚ → ℚ) (sr sr2 : ℚ) (s s2 : List ℚ)
    (h1 : sq = sq2) (h2 : sr = sr2) (h3 : s = s2) :
    detectPitch sr s = detectPitch sr2 s2 ∧
      estimateTempo sq sr s = estimateTempo sq2 sr2 s2 := by
  subst h1
  subst h2
  subst h3
  exact ⟨rfl, rfl⟩

/-! ### Concrete evaluations

`sqTable` stands in for `Math.sqrt` on the concrete traces below.  Every
square-root argument reached by those traces is one of `0`, `1` or `4/25`
(all perfect rational squares), on which `sqTable` returns the exact square
root (`0`, `1`, `2/5`), exactly as `Math.sqrt` does. -/
def sqTable (q : ℚ) : ℚ := if q = 1 then 1 else if q = 4/25 then 2/5 else 0

lemma sqTable_sqrtOK : SqrtOK sqTable := by
  constructor
  · norm_num [sqTable]
  · intro q _
    unfold sqTable
    split
    · norm_num
    · split
      · norm_num
      · exact le_rfl

lemma windowSize_100 : windowSize 100 = 2 := by
  unfold windowSize
  apply floorToNat_eq <;> norm_num

lemma profile_silent4 : buildEnergyProfile sqTable [0, 0, 0, 0] 2 = [0, 0] := by
  unfold buildEnergyProfile
  repeat (rw [energyProfileFrom]; norm_num [List.range', sqTable])

lemma profile_oneOnset : buildEnergyProfile sqTable [0, 0, 1, 1, 0, 0, 0, 0, 0, 0] 2
    = [0, 1, 0, 0, 0] := by
  unfold buildEnergyProfile
  repeat (rw [energyProfileFrom]; norm_num [List.range', sqTable])

lemma profile_twoOnsets :
    buildEnergyProfile sqTable [0, 0, 1, 1, 0, 0, 1, 1, 0, 0, 0, 0, 0, 0, 0, 0, 0, 0, 0, 0] 2
      = [0, 1, 0, 1, 0, 0, 0, 0, 0, 0] := by
  unfold buildEnergyProfile
  repeat (rw [energyProfileFrom]; norm_num [List.range', sqTable])

lemma profile_threeOnsets :
    buildEnergyProfile sqTable
        [0, 0, 1, 1, 0, 0, 0, 0, 0, 0, 1, 1, 0, 0, 1, 1, 0, 0, 0, 0, 0, 0, 0, 0, 0, 0, 0, 0, 0, 0] 2
      = [0, 1, 0, 0, 0, 1, 0, 1, 0, 0, 0, 0, 0, 0, 0] := by
  unfold buildEnergyProfile
  repeat (rw [energyProfileFrom]; norm_num [List.range', sqTable])

/-- Claim C1 (code evaluation at the failing input): on the all-zero buffer
`[0,0,0,0]` at sample rate 100, `detectPitch` returns 100 Hz — `sampleRate /
peakIndex` with the peak defaulting past the flat correlation array, not a
documented "undetected" sentinel — and `estimateTempo` divides 60 by zero
(no onsets, so `mostCommonInterval = 0`) and returns Infinity, which the spec
forbids. -/
theorem C1_silent_buffer_evaluation :
    detectPitch 100 [0, 0, 0, 0] = 100 ∧
    estimateTempo sqTable 100 [0, 0, 0, 0] = JSVal.inf := by
  constructor
  · have hc : correlations 100 [0, 0, 0, 0] = [0] := by
      have h : maxLag 100 = 1 := by
        unfold maxLag
        apply floorToNat_eq <;> norm_num
      unfold correlations
      rw [h]
      norm_num [corrAt, comparisonSamples, List.range_succ]
    have hfd : firstDropIndex [(0 : ℚ)] = 0 := by
      unfold firstDropIndex
      rw [firstDropFrom]
      norm_num
    have hp : peakIndex [(0 : ℚ)] = 1 := by
      unfold peakIndex peakFold
      rw [hfd]
      simp
    simp only [detectPitch]
    rw [hc, hp]
    rw [jsRound_eq ((100 : ℚ) / ((1 : ℕ) : ℚ) * 10) 1000 (by norm_num) (by norm_num)]
    norm_num
  · have honsets : findOnsets sqTable [(0 : ℚ), 0] = [] := by
      norm_num [findOnsets]
    simp only [estimateTempo]
    rw [windowSize_100, profile_silent4, honsets]
    norm_num [intervalsOf, mostCommonInterval, winnerFold, histKeys, normalizedIntervals,
      jsDiv, rangeCorrect, JSVal.gtQ, JSVal.divQ, JSVal.ltQ, JSVal.roundToInt]

/-- Claim C2 (code evaluation at the failing input): the buffer
`[0,0,1,1,0,0,0,0,0,0]` at sample rate 100 produces exactly one onset —
fewer than 2 — and `estimateTempo` then computes `60 / 0` and returns
Infinity instead of a defined fallback. -/
theorem C2_single_onset_evaluation :
    (findOnsets sqTable
        (buildEnergyProfile sqTable [0, 0, 1, 1, 0, 0, 0, 0, 0, 0] (windowSize 100))).length
      = 1 ∧
    estimateTempo sqTable 100 [0, 0, 1, 1, 0, 0, 0, 0, 0, 0] = JSVal.inf := by
  have honsets : findOnsets sqTable [(0 : ℚ), 1, 0, 0, 0] = [1] := by
    norm_num [findOnsets, calculateDynamicThreshold, sqTable, List.range']
  constructor
  · rw [windowSize_100, profile_oneOnset, honsets]
    rfl
  · simp only [estimateTempo]
    rw [windowSize_100, profile_oneOnset, honsets]
    norm_num [intervalsOf, mostCommonInterval, winnerFold, histKeys, normalizedIntervals,
      List.range', jsDiv, rangeCorrect, JSVal.gtQ, JSVal.divQ, JSVal.ltQ, JSVal.roundToInt]

/-- Claim C3 (counterexample): a buffer whose onsets are two windows apart
gives raw BPM 1500; the single halving leaves 750, so the "corrected output
lies in [60, 240]" law fails on the code as written. -/
theorem C3_range_counterexample :
    estimateTempo sqTable 100 [0, 0, 1, 1, 0, 0, 1, 1, 0, 0, 0, 0, 0, 0, 0, 0, 0, 0, 0, 0]
      = JSVal.fin 750 ∧ ¬((60 : ℚ) ≤ 750 ∧ (750 : ℚ) ≤ 240) := by
  refine ⟨?_, by norm_num⟩
  have honsets : findOnsets sqTable [(0 : ℚ), 1, 0, 1, 0, 0, 0, 0, 0, 0] = [1, 3] := by
    norm_num [findOnsets, calculateDynamicThreshold, sqTable, List.range']
  have hr : jsRound (750 : ℚ) = 750 := jsRound_eq _ _ (by norm_num) (by norm_num)
  have h1 : jsRound (1 : ℚ) = 1 := jsRound_eq _ _ (by norm_num) (by norm_num)
  simp only [estimateTempo]
  rw [windowSize_100, profile_twoOnsets, honsets]
  norm_num [intervalsOf, mostCommonInterval, winnerFold, histKeys, normalizedIntervals,
    normalizeInterval, insertKey, histCount, List.range', jsDiv, rangeCorrect,
    JSVal.gtQ, JSVal.divQ, JSVal.ltQ, JSVal.roundToInt, hr, h1]

/-- Witness for the amended C3 theorem at raw BPM 100. -/
theorem C3_range_correction_amended_witness :
    (30 : ℚ) ≤ 100 ∧ (100 : ℚ) ≤ 480 ∧
    (∃ m : ℤ, (rangeCorrect (JSVal.fin 100)).roundToInt = JSVal.fin (m : ℚ) ∧
      60 ≤ m ∧ m ≤ 240 ∧
      (240 < (100 : ℚ) → m = jsRound ((100 : ℚ) / 2)) ∧
      ((100 : ℚ) < 60 → m = jsRound ((100 : ℚ) * 2)) ∧
      ((60 : ℚ) ≤ 100 → (100 : ℚ) ≤ 240 → m = jsRound (100 : ℚ))) :=
  ⟨by norm_num, by norm_num,
    C3_range_correction_amended 100 (by norm_num) (by norm_num)⟩

/-- Claim C4 (counterexample): on the buffer `[1, 2, 0]` at sample rate 120
the correlation array is `[1, 2]` (strictly increasing).  The code walks
while the array is non-DEcreasing, so its first-drop index is 1 and it
returns 60 Hz, while the walk described by the spec (continue while
non-increasing, stop at the first increase) stops at 0, takes the maximum
from there on (lag 1) and yields 120 Hz. -/
theorem C4_first_drop_counterexample :
    firstDropIndex (correlations 120 [1, 2, 0]) = 1 ∧
    specFirstDrop (correlations 120 [1, 2, 0]) = 0 ∧
    detectPitch 120 [1, 2, 0] = 60 ∧
    specEstimatePitch 120 [1, 2, 0] = 120 := by
  have hc : correlations 120 [1, 2, 0] = [1, 2] := by
    have h : maxLag 120 = 2 := by
      unfold maxLag
      apply floorToNat_eq <;> norm_num
    unfold correlations
    rw [h]
    norm_num [corrAt, comparisonSamples, List.range_succ]
  have hfd : firstDropIndex [(1 : ℚ), 2] = 1 := by
    unfold firstDropIndex
    rw [firstDropFrom]
    norm_num
    rw [firstDropFrom]
    norm_num
  have hsfd : specFirstDrop [(1 : ℚ), 2] = 0 := by
    unfold specFirstDrop
    rw [specFirstDropFrom]
    norm_num
  refine ⟨by rw [hc, hfd], by rw [hc, hsfd], ?_, ?_⟩
  · have hp : peakIndex [(1 : ℚ), 2] = 2 := by
      unfold peakIndex peakFold
      rw [hfd]
      simp
    simp only [detectPitch]
    rw [hc, hp]
    rw [jsRound_eq ((120 : ℚ) / ((2 : ℕ) : ℚ) * 10) 600 (by norm_num) (by norm_num)]
    norm_num
  · have hp : specPeakLag [(1 : ℚ), 2] = 1 := by
      unfold specPeakLag
      rw [hsfd]
      norm_num [List.range', peakStep]
    simp only [specEstimatePitch]
    rw [hc, hp]
    rw [jsRound_eq ((120 : ℚ) / ((1 : ℕ) : ℚ) * 10) 1200 (by norm_num) (by norm_num)]
    norm_num

/-- Claim C5 (counterexample): the buffer below yields onsets `[1, 5, 7]` and
inter-onset intervals `[4, 2]` — bucket 4 is seen first, bucket 2 later, each
with count 1.  The code iterates `Object.entries` in ascending numeric key
order and picks bucket 2 (tempo 750), whereas the spec's first-seen tie-break
picks bucket 4 (tempo 375). -/
theorem C5_tie_break_counterexample :
    intervalsOf (findOnsets sqTable (buildEnergyProfile sqTable
        [0, 0, 1, 1, 0, 0, 0, 0, 0, 0, 1, 1, 0, 0, 1, 1, 0, 0, 0, 0, 0, 0, 0, 0, 0, 0, 0, 0, 0, 0]
        (windowSize 100))) = [4, 2] ∧
    mostCommonInterval [4, 2] = 2 ∧
    specMostCommonFirstSeen [4, 2] = 4 ∧
    estimateTempo sqTable 100
        [0, 0, 1, 1, 0, 0, 0, 0, 0, 0, 1, 1, 0, 0, 1, 1, 0, 0, 0, 0, 0, 0, 0, 0, 0, 0, 0, 0, 0, 0]
      = JSVal.fin 750 ∧
    specEstimateTempoFirstSeen sqTable 100
        [0, 0, 1, 1, 0, 0, 0, 0, 0, 0, 1, 1, 0, 0, 1, 1, 0, 0, 0, 0, 0, 0, 0, 0, 0, 0, 0, 0, 0, 0]
      = JSVal.fin 375 := by
  have honsets : findOnsets sqTable [(0 : ℚ), 1, 0, 0, 0, 1, 0, 1, 0, 0, 0, 0, 0, 0, 0]
      = [1, 5, 7] := by
    norm_num [findOnsets, calculateDynamicThreshold, sqTable, List.range']
  have h1 : jsRound (1 : ℚ) = 1 := jsRound_eq _ _ (by norm_num) (by norm_num)
  have h2 : jsRound (2 : ℚ) = 2 := jsRound_eq _ _ (by norm_num) (by norm_num)
  have hr750 : jsRound (750 : ℚ) = 750 := jsRound_eq _ _ (by norm_num) (by norm_num)
  have hr375 : jsRound (375 : ℚ) = 375 := jsRound_eq _ _ (by norm_num) (by norm_num)
  have hints : intervalsOf [1, 5, 7] = [4, 2] := by
    norm_num [intervalsOf, List.range']
  refine ⟨?_, ?_, ?_, ?_, ?_⟩
  · rw [windowSize_100, profile_threeOnsets, honsets, hints]
  · norm_num [mostCommonInterval, winnerFold, histKeys, normalizedIntervals,
      normalizeInterval, insertKey, histCount, h1, h2]
  · norm_num [specMostCommonFirstSeen, winnerFold, histKeysFirstSeen, insertFirstSeen,
      normalizedIntervals, normalizeInterval, histCount, h1, h2]
  · simp only [estimateTempo]
    rw [windowSize_100, profile_threeOnsets, honsets, hints]
    norm_num [mostCommonInterval, winnerFold, histKeys, normalizedIntervals,
      normalizeInterval, insertKey, histCount, jsDiv, rangeCorrect,
      JSVal.gtQ, JSVal.divQ, JSVal.ltQ, JSVal.roundToInt, h1, h2, hr750]
  · simp only [specEstimateTempoFirstSeen]
    rw [windowSize_100, profile_threeOnsets, honsets, hints]
    norm_num [specMostCommonFirstSeen, winnerFold, histKeysFirstSeen, insertFirstSeen,
      normalizedIntervals, normalizeInterval, histCount, jsDiv, rangeCorrect,
      JSVal.gtQ, JSVal.divQ, JSVal.ltQ, JSVal.roundToInt, h1, h2, hr375]

/-- Witness for the amended C5 theorem at the interval list `[2]`. -/
theorem C5_histogram_amended_witness :
    ([2] : List ℤ) ≠ [] ∧
    (mostCommonInterval [2] ∈ normalizedIntervals [2] ∧
      (∀ k ∈ normalizedIntervals [2],
        histCount [2] k ≤ histCount [2] (mostCommonInterval [2])) ∧
      (∀ k ∈ normalizedIntervals [2],
        histCount [2] k = histCount [2] (mostCommonInterval [2]) →
          mostCommonInterval [2] ≤ k) ∧
      (∀ j : ℤ, normalizeInterval j = jsRound ((j : ℚ) / 2) * 2)) :=
  ⟨by simp, C5_histogram_amended [2] (by simp)⟩

/-- Witness for the C6 theorem on the buffer `[0, 0]` at sample rate 100. -/
theorem C6_energy_profile_witness :
    SqrtOK sqTable ∧ 0 < windowSize 100 ∧ ([0, 0] : List ℚ) ≠ [] ∧
    ((((buildEnergyProfile sqTable [0, 0] (windowSize 100)).length : ℕ) : ℤ) =
      ⌈((([0, 0] : List ℚ).length : ℕ) : ℚ) / ((windowSize 100 : ℕ) : ℚ)⌉ ∧
    (∀ w, w < (buildEnergyProfile sqTable [0, 0] (windowSize 100)).length →
      (buildEnergyProfile sqTable [0, 0] (windowSize 100)).getD w 0 =
        sqTable ((((List.range' (w * windowSize 100)
            (min (w * windowSize 100 + windowSize 100) ([0, 0] : List ℚ).length
              - w * windowSize 100)).map
            (fun j => ([0, 0] : List ℚ).getD j 0 * ([0, 0] : List ℚ).getD j 0)).sum)
          / ((min (w * windowSize 100 + windowSize 100) ([0, 0] : List ℚ).length
              - w * windowSize 100 : ℕ) : ℚ))) ∧
    (∀ w, w < (buildEnergyProfile sqTable [0, 0] (windowSize 100)).length →
      0 ≤ (buildEnergyProfile sqTable [0, 0] (windowSize 100)).getD w 0)) :=
  ⟨sqTable_sqrtOK, by rw [windowSize_100]; norm_num, by simp,
    C6_energy_profile sqTable 100 [0, 0] sqTable_sqrtOK
      (by rw [windowSize_100]; norm_num) (by simp)⟩

/-- Witness for the C8 theorem at lag 1 on the buffer `[1, 2, 0]` at sample
rate 120. -/
theorem C8_autocorrelation_witness :
    1 < maxLag 120 ∧ comparisonSamples ([1, 2, 0] : List ℚ).length + 1 ≤ ([1, 2, 0] : List ℚ).length ∧
    ((correlations 120 [1, 2, 0]).length = (⌊(120 : ℚ) / 60⌋).toNat ∧
    (correlations 120 [1, 2, 0]).getD 1 0 =
      ((List.range (([1, 2, 0] : List ℚ).length / 3)).map
        (fun i => ([1, 2, 0] : List ℚ).getD i 0 * ([1, 2, 0] : List ℚ).getD (i + 1) 0)).sum) := by
  have hml : maxLag 120 = 2 := by
    unfold maxLag
    apply floorToNat_eq <;> norm_num
  refine ⟨by rw [hml]; norm_num, by norm_num [comparisonSamples], ?_⟩
  exact C8_autocorrelation 120 [1, 2, 0] 1 (by rw [hml]; norm_num)
    (by norm_num [comparisonSamples])

/-- Witness for the C9 determinism theorem at a concrete input. -/
theorem C9_determinism_witness :
    sqTable = sqTable ∧ (100 : ℚ) = 100 ∧ ([0, 0] : List ℚ) = [0, 0] ∧
    (detectPitch 100 [0, 0] = detectPitch 100 [0, 0] ∧
      estimateTempo sqTable 100 [0, 0] = estimateTempo sqTable 100 [0, 0]) :=
  ⟨rfl, rfl, rfl, C9_determinism sqTable sqTable 100 100 [0, 0] [0, 0] rfl rfl rfl⟩

/-- Witness for the C10 theorem at sample rate 120 on the buffer `[1, 2, 0]`. -/
theorem C10_no_division_by_zero_witness :
    (1 : ℚ) ≤ 120 ∧
    (firstDropIndex (correlations 120 [1, 2, 0]) + 1 ≤ peakIndex (correlations 120 [1, 2, 0]) ∧
      1 ≤ peakIndex (correlations 120 [1, 2, 0]) ∧
      0 < detectPitch 120 [1, 2, 0]) :=
  ⟨by norm_num, C10_no_division_by_zero 120 [1, 2, 0] (by norm_num)⟩

end AudioUtils
